import Mathlib

/-
Verification of the fall-detector IMU pipeline.

Shallow embedding of the repository's Python sources over ℚ:
  * analyze_fall_no_pandas.py          (percentile, windowing, sampling rate,
                                        quartile partition builder)
  * src/extract_features_and_fuzzy_params.py
                                       (threshold summaries, threshold partition
                                        builder, windowed features)
  * src/fuzzy_logic_characterized.py   (fuzzy rule base, score, hysteresis)

Python floats are modelled as rationals; float NaN is modelled as `none` of
`Option ℚ`.  Python's `sorted` is modelled by insertion sort: on rationals a
sort output is unique, so the algorithm choice is immaterial.
-/

namespace FallDetector

/-- Clamp `x` to `[lo, hi]` as `max(lo, min(hi, x))`; the `clamp` helper inside
`trimf_from_quartiles` (analyze_fall_no_pandas.py line 193). -/
def clampQ (lo hi x : ℚ) : ℚ := max lo (min hi x)

/-- Ascending sort of a list of rationals (Python `sorted`). -/
def sortQ (l : List ℚ) : List ℚ := l.insertionSort (· ≤ ·)

/-- Middle element of the ascending sort for odd length, mean of the two middle
elements for even length.  This is literally the computation at
analyze_fall_no_pandas.py lines 100-102 (`dts_sorted[mid]` /
`0.5*(dts_sorted[mid-1]+dts_sorted[mid])`), the semantics of
`pandas.Series.median`, and at the same time the textbook median. -/
def medianSpec (V : List ℚ) : ℚ :=
  if V.length % 2 = 1 then (sortQ V).getD (V.length / 2) 0
  else ((sortQ V).getD (V.length / 2 - 1) 0 + (sortQ V).getD (V.length / 2) 0) / 2

/-- Median of a possibly empty list; `none` models the NaN / "no data" case. -/
def medianQ (l : List ℚ) : Option ℚ := if l.isEmpty then none else some (medianSpec l)

/-- Consecutive differences `t[i+1] - t[i]` (analyze_fall_no_pandas.py line 96,
and `pandas.Series.diff` with its leading NaN dropped). -/
def diffs (t : List ℚ) : List ℚ := (t.zip t.tail).map fun p => p.2 - p.1

/-- Interpolation position `k = (n-1)·(p/100)` of `percentile`
(analyze_fall_no_pandas.py line 47). -/
def percPos (n : ℕ) (p : ℚ) : ℚ := ((n - 1 : ℕ) : ℚ) * (p / 100)

/-- Percentile of an already sorted list `vs` (the body of `percentile` after
the sort, analyze_fall_no_pandas.py lines 44-52): `none` for an empty list,
the first element for `p ≤ 0`, the last for `p ≥ 100`, otherwise linear
interpolation at position `k = (n-1)·p/100` between the floor and ceil ranks
with weights `(ceil k - k)` and `(k - floor k)` (when the two ranks coincide,
the element at rank `int(k) = ⌊k⌋` itself). -/
def percOfSorted (vs : List ℚ) (p : ℚ) : Option ℚ :=
  if vs.isEmpty then none
  else if p ≤ 0 then vs.head?
  else if 100 ≤ p then vs.getLast?
  else if (⌊percPos vs.length p⌋ : ℤ) = ⌈percPos vs.length p⌉ then
    some (vs.getD (⌊percPos vs.length p⌋).toNat 0)
  else
    some (vs.getD (⌊percPos vs.length p⌋).toNat 0 * ((⌈percPos vs.length p⌉ : ℚ) - percPos vs.length p) +
      vs.getD (⌈percPos vs.length p⌉).toNat 0 * (percPos vs.length p - (⌊percPos vs.length p⌋ : ℚ)))

/-- `percentile(values, p)` of analyze_fall_no_pandas.py lines 37-52 (also the
behaviour of `numpy.nanpercentile` with linear interpolation): drop the missing
(`none` ≈ NaN) entries, sort ascending, then interpolate. -/
def percentile (values : List (Option ℚ)) (p : ℚ) : Option ℚ :=
  percOfSorted (sortQ (values.filterMap id)) p

/-- Loop body of `slice_windows` (analyze_fall_no_pandas.py lines 63-68) and of
the window loop in `compute_window_features`
(extract_features_and_fuzzy_params.py lines 79-106): starting at index `i`,
emit `(i, i+win)` and step by `hop` while `i + win ≤ n`.  The source loop never
terminates for `hop = 0` (its callers force `hop ≥ 1`); the embedding returns
`[]` in that unreachable case. -/
def sliceWindowsGo (n win hop i : ℕ) : List (ℕ × ℕ) :=
  if h : 0 < hop ∧ i + win ≤ n then (i, i + win) :: sliceWindowsGo n win hop (i + hop)
  else []
termination_by n + 1 - i
decreasing_by omega

/-- `slice_windows(n, win_n, hop_n)`: all index slices `[i, i+win)` for
`i = 0, hop, 2·hop, …` while `i + win ≤ n`. -/
def slice_windows (n win hop : ℕ) : List (ℕ × ℕ) := sliceWindowsGo n win hop 0

/-- `compute_sampling(dt_list, default_fs)` (analyze_fall_no_pandas.py lines
94-103): keep the positive consecutive deltas, fall back to `default_fs` when
none remain, otherwise return the reciprocal of their median (guarded by the
source's redundant `dt_med > 0` check). -/
def compute_sampling (dt_list : List ℚ) (default_fs : ℚ) : ℚ :=
  match medianQ ((diffs dt_list).filter fun d => decide (0 < d)) with
  | none => default_fs
  | some m => if 0 < m then 1 / m else default_fs

/-- Sampling-rate estimate of `compute_window_features`
(extract_features_and_fuzzy_params.py lines 59-60): `dt` is the median of ALL
consecutive timestamp deltas (pandas `diff().median()`, no positivity filter),
and `fs = 1/dt if dt and dt > 0 else 50.0` — NaN (no deltas), zero and negative
medians all fall back to 50. -/
def fsExtract (t : List ℚ) : ℚ :=
  match medianQ (diffs t) with
  | none => 50
  | some m => if 0 < m then 1 / m else 50

/-- Timestamps of the FALL-labelled rows (analyze_fall_no_pandas.py lines
123-132: truncate all columns to the common length, then keep rows whose
normalised label equals "FALL"). -/
def fallTimes (t : List ℚ) (labels : List String) : List ℚ :=
  ((t.zip labels).filter fun p => p.2 == "FALL").map Prod.fst

/-- Sampling rate used by `window_features_fall` (analyze_fall_no_pandas.py
line 141): `compute_sampling` on the FALL-restricted timestamps, default 50. -/
def fallFs (t : List ℚ) (labels : List String) : ℚ :=
  compute_sampling (fallTimes t labels) 50

/-- Sampling-rate formula as the specification words it: the reciprocal of the
median of the positive consecutive timestamp deltas, with a fallback when no
positive delta exists.  Stated separately from the two source computations so
that each can be compared against it. -/
def fsSpecMedianPositive (t : List ℚ) (default_fs : ℚ) : ℚ :=
  match medianQ ((diffs t).filter fun d => decide (0 < d)) with
  | none => default_fs
  | some m => 1 / m

/-- One repair step of the `tri` helper (analyze_fall_no_pandas.py lines
197-198): `if x <= prev: x = min(hi, prev + 1e-6)`. -/
def repairUp (hi prev x : ℚ) : ℚ := if x ≤ prev then min hi (prev + 1 / 1000000) else x

/-- The `tri` helper of `trimf_from_quartiles` (analyze_fall_no_pandas.py lines
194-199): clamp the three inputs to `[lo, hi]`, then repair degeneracy by
nudging `b` (resp. `c`) to `min(hi, previous + 1e-6)` whenever it does not
strictly exceed its predecessor (the `c` check uses the already repaired `b`). -/
def triRepair (lo hi a0 b0 c0 : ℚ) : ℚ × ℚ × ℚ :=
  (clampQ lo hi a0,
    repairUp hi (clampQ lo hi a0) (clampQ lo hi b0),
    repairUp hi (repairUp hi (clampQ lo hi a0) (clampQ lo hi b0)) (clampQ lo hi c0))

/-- `trimf_from_quartiles(stats, lo, hi)` (analyze_fall_no_pandas.py lines
185-207): `low = tri(min, p25, p50)`, `medium = tri(p25, p50, p75)`,
`high = tri(p50, p75, max)`. -/
def trimf_from_quartiles (mn p25 p50 p75 mx lo hi : ℚ) :
    (ℚ × ℚ × ℚ) × (ℚ × ℚ × ℚ) × (ℚ × ℚ × ℚ) :=
  (triRepair lo hi mn p25 p50, triRepair lo hi p25 p50 p75, triRepair lo hi p50 p75 mx)

/-- The `sort_tri` helper of `triangle_around_threshold`
(extract_features_and_fuzzy_params.py lines 172-177): sort the three values
ascending, then if the first two are equal bump the middle one to
`min(hi, x+1e-6)`, and if the (updated) middle equals the last bump the last
likewise. -/
def sort_tri (hi_bound : ℚ) (t : ℚ × ℚ × ℚ) : ℚ × ℚ × ℚ :=
  let s := sortQ [t.1, t.2.1, t.2.2]
  let x0 := s.getD 0 0
  let x1 := s.getD 1 0
  let x2 := s.getD 2 0
  let y1 := if x0 = x1 then min hi_bound (x1 + 1 / 1000000) else x1
  let y2 := if y1 = x2 then min hi_bound (x2 + 1 / 1000000) else x2
  (x0, y1, y2)

/-- `triangle_around_threshold(thr, low_max, high_min, lo_bound, hi_bound)`
(extract_features_and_fuzzy_params.py lines 136-178).  `thr = none` models the
NaN threshold and yields the fixed generic partition of the universe (lines
146-152, returned without any repair); otherwise the three anchored sets are
built and passed through `sort_tri`. -/
def triangle_around_threshold (thr : Option ℚ) (low_max high_min lo_bound hi_bound : ℚ) :
    (ℚ × ℚ × ℚ) × (ℚ × ℚ × ℚ) × (ℚ × ℚ × ℚ) :=
  match thr with
  | none =>
    let span := hi_bound - lo_bound
    ((lo_bound, lo_bound, lo_bound + span * (4 / 10)),
      (lo_bound + span * (2 / 10), lo_bound + span * (5 / 10), lo_bound + span * (8 / 10)),
      (lo_bound + span * (6 / 10), hi_bound, hi_bound))
  | some thr =>
    let low := (max lo_bound lo_bound, max lo_bound ((lo_bound + low_max) / 2),
      max lo_bound (min thr low_max))
    let mid := (max lo_bound (thr - (thr - lo_bound) * (3 / 10)), thr,
      min hi_bound (thr + (hi_bound - thr) * (3 / 10)))
    let high := (min hi_bound (max thr high_min), min hi_bound ((high_min + hi_bound) / 2),
      min hi_bound hi_bound)
    (sort_tri hi_bound low, sort_tri hi_bound mid, sort_tri hi_bound high)

/-- Result record of `summarize_thresholds`; `none` models the NaN entries. -/
structure ThrSummary where
  adl_p50 : Option ℚ
  adl_p95 : Option ℚ
  fall_p50 : Option ℚ
  fall_p95 : Option ℚ
  thr : Option ℚ

/-- `summarize_thresholds(feat, feature)` (extract_features_and_fuzzy_params.py
lines 111-133) on the (label, value) pairs of one feature column: per-class
p50/p95 (NaN when the class has no windows), and
`thr = (ADL_p95 + FALL_p50)/2` when both are non-NaN, else NaN. -/
def summarize_thresholds (rows : List (String × ℚ)) : ThrSummary :=
  let adl := (rows.filter fun r => r.1 == "ADL").map Prod.snd
  let fall := (rows.filter fun r => r.1 == "FALL").map Prod.snd
  { adl_p50 := percentile (adl.map some) 50
    adl_p95 := percentile (adl.map some) 95
    fall_p50 := percentile (fall.map some) 50
    fall_p95 := percentile (fall.map some) 95
    thr :=
      match percentile (adl.map some) 95, percentile (fall.map some) 50 with
      | some x, some y => some ((x + y) / 2)
      | _, _ => none }

/-- Bounds part of the TriangularSet invariant for a declared universe
`[lo, hi]`: `lo ≤ a ≤ b ≤ c ≤ hi`. -/
def triBounds (lo hi : ℚ) (t : ℚ × ℚ × ℚ) : Prop :=
  lo ≤ t.1 ∧ t.1 ≤ t.2.1 ∧ t.2.1 ≤ t.2.2 ∧ t.2.2 ≤ hi

/-- Triangular membership value `max(0, min((x-a)/(b-a), (c-x)/(c-b)))`, the
shape of `skfuzzy.trimf(universe, [a,b,c])` for `a < b < c` (all nine membership
triples hard-coded in fuzzy_logic_characterized.py are strictly increasing, and
their breakpoints lie on the dense universe grids the module samples them on,
so grid interpolation is exact). -/
def trimfQ (a b c x : ℚ) : ℚ := max 0 (min ((x - a) / (b - a)) ((c - x) / (c - b)))

/-- Linguistic terms of the `aceleracion` antecedent
(fuzzy_logic_characterized.py lines 36-38). -/
inductive AccTerm where
  | bajo
  | medio
  | alto
deriving DecidableEq

/-- Linguistic terms of the `giro` antecedent (lines 41-43). -/
inductive GyroTerm where
  | lento
  | medio
  | rapido
deriving DecidableEq

/-- Linguistic terms of the `caida` consequent (lines 46-48). -/
inductive OutTerm where
  | bajo
  | medio
  | alto
deriving DecidableEq

/-- Membership functions of `aceleracion`:
`bajo = trimf [0, 0.4, 0.9]`, `medio = trimf [0.7, 1.0, 1.6]`,
`alto = trimf [1.2, 2.2, 3.50]`. -/
def accMF : AccTerm → ℚ → ℚ
  | .bajo => trimfQ 0 (4 / 10) (9 / 10)
  | .medio => trimfQ (7 / 10) 1 (16 / 10)
  | .alto => trimfQ (12 / 10) (22 / 10) (7 / 2)

/-- Membership functions of `giro`:
`lento = trimf [0, 40, 90]`, `medio = trimf [60, 160, 260]`,
`rapido = trimf [180, 320, 600]`. -/
def gyroMF : GyroTerm → ℚ → ℚ
  | .lento => trimfQ 0 40 90
  | .medio => trimfQ 60 160 260
  | .rapido => trimfQ 180 320 600

/-- Membership functions of `caida`:
`bajo = trimf [0, 0.2, 0.5]`, `medio = trimf [0.3, 0.5, 0.7]`,
`alto = trimf [0.6, 0.85, 1.0]`. -/
def fallMF : OutTerm → ℚ → ℚ
  | .bajo => trimfQ 0 (2 / 10) (1 / 2)
  | .medio => trimfQ (3 / 10) (1 / 2) (7 / 10)
  | .alto => trimfQ (6 / 10) (85 / 100) 1

/-- One Mamdani rule: a fuzzy-AND of one acceleration term and one rotation
term, implying one output term. -/
structure Rule where
  acc : AccTerm
  gyro : GyroTerm
  out : OutTerm
deriving DecidableEq

/-- The rule base of fuzzy_logic_characterized.py lines 51-75, in source order.
The sixth source rule is written `gyro['lento'] & acc['medio']`; fuzzy AND is
symmetric, so it is recorded as (acc medio, gyro lento). -/
def rules : List Rule :=
  [⟨.alto, .rapido, .alto⟩,
    ⟨.alto, .medio, .medio⟩,
    ⟨.medio, .rapido, .medio⟩,
    ⟨.bajo, .rapido, .medio⟩,
    ⟨.medio, .medio, .medio⟩,
    ⟨.medio, .lento, .bajo⟩,
    ⟨.bajo, .lento, .bajo⟩,
    ⟨.alto, .lento, .medio⟩]

/-- Rule strength: min of the two antecedent membership degrees (fuzzy AND). -/
def ruleStrength (r : Rule) (a g : ℚ) : ℚ := min (accMF r.acc a) (gyroMF r.gyro g)

/-- Modelled from the spec: `sim.compute()` delegates to the scikit-fuzzy
library, which is not part of this repository; §4.4 of the specification
describes its Mamdani evaluation.  Aggregated output membership at `x`: the
pointwise maximum over the rules of the output set capped (min) at the rule's
strength. -/
def aggregatedMF (rs : List Rule) (a g : ℚ) : ℚ → ℚ := fun x =>
  (rs.map fun r => min (ruleStrength r a g) (fallMF r.out x)).foldr max 0

/-- The output universe grid `np.arange(0.0, 1.00 + 1e-9, 0.01)`
(fuzzy_logic_characterized.py line 24): 101 points `0, 0.01, …, 1`. -/
def fallGrid : List ℚ := (List.range 101).map fun i : ℕ => (i : ℚ) / 100

/-- Modelled from the spec: centroid defuzzification over the dense output
discretization, `score = Σ(x·μ(x)) / Σ(μ(x))` (§4.4 step 5); `none` models the
degenerate case of a ~0 denominator, in which the library raises and the
caller's handler substitutes the safe score 0. -/
def centroidQ (μ : ℚ → ℚ) : Option ℚ :=
  if (fallGrid.map μ).sum = 0 then none
  else some ((fallGrid.map fun x => x * μ x).sum / (fallGrid.map μ).sum)

/-- Mamdani score for a rule list and (already clamped) crisp inputs, with the
degenerate-defuzzification case mapped to the safe score 0. -/
def scoreFromRules (rs : List Rule) (a g : ℚ) : ℚ :=
  (centroidQ (aggregatedMF rs a g)).getD 0

/-- `fuzzy_fall_score(acc_mag_g, gyro_mag_dps)` (fuzzy_logic_characterized.py
lines 79-94): clamp the inputs to the universes `[0, 3.50]` and `[0, 600]`,
run the Mamdani system, and map any internal computation failure to 0. -/
def fuzzy_fall_score (acc_mag_g gyro_mag_dps : ℚ) : ℚ :=
  scoreFromRules rules (max 0 (min acc_mag_g (7 / 2))) (max 0 (min gyro_mag_dps 600))

/-- `decision_from_scores(scores, hi, lo)` (fuzzy_logic_characterized.py lines
98-110): `False` on an empty history; otherwise `was_active` is true when ANY
score before the last one reached `hi`, and the decision compares the last
score against `lo` when `was_active`, else against `hi`. -/
def decision_from_scores (scores : List ℚ) (hi lo : ℚ) : Bool :=
  match scores with
  | [] => false
  | s :: ss =>
    let last := ss.getLastD s
    let was_active := ((s :: ss).dropLast).any fun x => decide (hi ≤ x)
    if was_active then decide (lo ≤ last) else decide (hi ≤ last)

/-- Modelled from the spec: one step of the §4.5 hysteresis state machine with
states {Inactive = false, Active = true}: Inactive → Active when the score
reaches `hi`; Active stays Active while the score is at least `lo`. -/
def latchStep (hi lo : ℚ) (active : Bool) (s : ℚ) : Bool :=
  if active then decide (lo ≤ s) else decide (hi ≤ s)

/-- Modelled from the spec: causal evaluation of the §4.5 latch over a score
sequence, starting Inactive. -/
def latchDecision (hi lo : ℚ) (scores : List ℚ) : Bool :=
  scores.foldl (latchStep hi lo) false

lemma sortQ_perm (l : List ℚ) : (sortQ l).Perm l := List.perm_insertionSort _ l

lemma sortQ_sorted (l : List ℚ) : List.Sorted (· ≤ ·) (sortQ l) :=
  List.sorted_insertionSort _ l

lemma sortQ_length (l : List ℚ) : (sortQ l).length = l.length :=
  List.length_insertionSort _ l

lemma getD_mem_of_lt {l : List ℚ} {i : ℕ} (h : i < l.length) : l.getD i 0 ∈ l := by
  rw [List.getD_eq_getElem l 0 h]
  exact List.getElem_mem h

lemma medianSpec_mem_or_avg {l : List ℚ} (hne : l ≠ []) (P : ℚ → Prop)
    (hP : ∀ x ∈ l, P x) (havg : ∀ x ∈ l, ∀ y ∈ l, P ((x + y) / 2)) :
    P (medianSpec l) := by
  have hlen : (sortQ l).length = l.length := sortQ_length l
  have hpos : 0 < l.length := List.length_pos.mpr hne
  have hmem : ∀ x ∈ sortQ l, x ∈ l := fun x hx => (sortQ_perm l).mem_iff.mp hx
  unfold medianSpec
  by_cases hpar : l.length % 2 = 1
  · rw [if_pos hpar]
    exact hP _ (hmem _ (getD_mem_of_lt (by omega)))
  · rw [if_neg hpar]
    have h2 : 2 ≤ l.length := by omega
    exact havg _ (hmem _ (getD_mem_of_lt (by omega))) _ (hmem _ (getD_mem_of_lt (by omega)))

lemma medianSpec_pos {l : List ℚ} (hne : l ≠ []) (hpos : ∀ x ∈ l, 0 < x) :
    0 < medianSpec l := by
  refine medianSpec_mem_or_avg hne (0 < ·) hpos fun x hx y hy => ?_
  have := hpos x hx
  have := hpos y hy
  linarith

lemma medianQ_filter_pos {l : List ℚ} {m : ℚ}
    (hm : medianQ (l.filter fun d => decide (0 < d)) = some m) : 0 < m := by
  unfold medianQ at hm
  by_cases he : (l.filter fun d => decide (0 < d)).isEmpty
  · rw [if_pos he] at hm
    exact absurd hm (by simp)
  · rw [if_neg he] at hm
    have hne : (l.filter fun d => decide (0 < d)) ≠ [] := by
      simpa [List.isEmpty_eq_false] using he
    have hval : 0 < medianSpec (l.filter fun d => decide (0 < d)) :=
      medianSpec_pos hne fun x hx => of_decide_eq_true (List.mem_filter.mp hx).2
    rw [← Option.some.inj hm]
    exact hval

/-- C1: the decision layer is claimed to be a two-state latch evaluated
causally.  The code is not: `was_active = any(s >= hi for s in scores[:-1])`
stays true forever once any past score reached `hi`, so with `hi = 0.7`,
`lo = 0.5` and the causal history `[0.8, 0.4, 0.6]` the code answers `True` at
the third score, while the latch of the claim (and of the function's own
docstring) is Inactive after the drop to `0.4 < lo` and must answer `False`
for `0.6 ∈ [lo, hi)`. -/
theorem hysteresis_history_latch_divergence :
    decision_from_scores [4 / 5, 2 / 5, 3 / 5] (7 / 10) (1 / 2) = true ∧
      latchDecision (7 / 10) (1 / 2) [4 / 5, 2 / 5, 3 / 5] = false := by
  constructor
  · norm_num [decision_from_scores, List.getLastD, List.dropLast, List.any]
  · norm_num [latchDecision, latchStep, List.foldl]

/-- C6 counterexample: for the timestamp sequence `[0, 0, 1]` the sampling rate
computed by `compute_window_features` is `1 / median([0, 1]) = 2`, while the
claimed formula (reciprocal of the median of the positive deltas) gives
`1 / median([1]) = 1`. -/
theorem sampling_rate_positive_filter_cex :
    fsExtract [0, 0, 1] = 2 ∧ fsSpecMedianPositive [0, 0, 1] 50 = 1 ∧
      fsExtract [0, 0, 1] ≠ fsSpecMedianPositive [0, 0, 1] 50 := by
  refine ⟨?_, ?_, ?_⟩ <;>
    norm_num [fsExtract, fsSpecMedianPositive, medianQ, medianSpec, diffs, sortQ,
      List.insertionSort, List.orderedInsert, List.filter]

/-- C6 amended: `window_features_fall` (via `compute_sampling`) does use the
reciprocal of the median of the positive consecutive deltas of the
FALL-restricted timestamps, with the default rate as fallback when no positive
delta exists; but `compute_window_features` (`fsExtract`) takes the median of
ALL consecutive deltas without filtering, and falls back to 50 Hz whenever that
unfiltered median is missing or non-positive. -/
theorem sampling_rate_amended :
    ∀ (t : List ℚ) (labels : List String) (d : ℚ),
      compute_sampling t d = fsSpecMedianPositive t d ∧
        fallFs t labels = fsSpecMedianPositive (fallTimes t labels) 50 ∧
        fsExtract t = (match medianQ (diffs t) with
          | none => 50
          | some m => if 0 < m then 1 / m else 50) := by
  have key : ∀ (t : List ℚ) (d : ℚ), compute_sampling t d = fsSpecMedianPositive t d := by
    intro t d
    unfold compute_sampling fsSpecMedianPositive
    cases hm : medianQ ((diffs t).filter fun x => decide (0 < x)) with
    | none => rfl
    | some m => simp [if_pos (medianQ_filter_pos hm)]
  intro t labels d
  exact ⟨key t d, key (fallTimes t labels) 50, rfl⟩

/-- C9: with thresholds `hi = 0.7`, `lo = 0.5`, the decision layer evaluated
causally on the successive prefixes of `[0.2, 0.65, 0.75, 0.6, 0.45, 0.8]`
yields exactly `[false, false, true, true, false, true]`. -/
theorem hysteresis_scenario :
    decision_from_scores [1 / 5] (7 / 10) (1 / 2) = false ∧
      decision_from_scores [1 / 5, 13 / 20] (7 / 10) (1 / 2) = false ∧
      decision_from_scores [1 / 5, 13 / 20, 3 / 4] (7 / 10) (1 / 2) = true ∧
      decision_from_scores [1 / 5, 13 / 20, 3 / 4, 3 / 5] (7 / 10) (1 / 2) = true ∧
      decision_from_scores [1 / 5, 13 / 20, 3 / 4, 3 / 5, 9 / 20] (7 / 10) (1 / 2) = false ∧
      decision_from_scores [1 / 5, 13 / 20, 3 / 4, 3 / 5, 9 / 20, 4 / 5] (7 / 10) (1 / 2) =
        true := by
  refine ⟨?_, ?_, ?_, ?_, ?_, ?_⟩ <;>
    norm_num [decision_from_scores, List.getLastD, List.dropLast, List.any]

/-- C10: on an empty score history the decision layer returns `false` for every
pair of thresholds. -/
theorem empty_history_no_fall : ∀ hi lo : ℚ, decision_from_scores [] hi lo = false :=
  fun _ _ => rfl

lemma le_clampQ (lo hi x : ℚ) : lo ≤ clampQ lo hi x := le_max_left _ _

lemma clampQ_le_hi {lo hi : ℚ} (h : lo ≤ hi) (x : ℚ) : clampQ lo hi x ≤ hi :=
  max_le h (min_le_left _ _)

lemma le_repairUp {hi prev : ℚ} (hprev : prev ≤ hi) (x : ℚ) : prev ≤ repairUp hi prev x := by
  unfold repairUp
  split_ifs with hx
  · exact le_min hprev (by linarith)
  · linarith

lemma repairUp_le_hi {hi x : ℚ} (prev : ℚ) (hx : x ≤ hi) : repairUp hi prev x ≤ hi := by
  unfold repairUp
  split_ifs with h
  · exact min_le_left _ _
  · exact hx

lemma lt_repairUp_iff {hi prev x : ℚ} (hprev : prev ≤ hi) (hx : x ≤ hi) :
    prev < repairUp hi prev x ↔ prev < hi := by
  unfold repairUp
  split_ifs with h
  · rw [lt_min_iff]
    constructor
    · exact fun hp => hp.1
    · exact fun hp => ⟨hp, by linarith⟩
  · push_neg at h
    constructor
    · intro
      linarith
    · intro
      exact h

/-- C3 counterexample: (1) in the threshold branch, with `thr = 0`,
`low_max = 0`, `high_min = 1.2` over the universe `[0, 3]` (exactly the
arguments `build_fuzzy_params` passes when both class statistics are 0), the
repaired low set is `(0, 1e-6, 0)`, violating `a ≤ b ≤ c`;  (2) the generic
fallback partition is returned without repair, and its low set keeps the
degenerate `a = b = lo`, violating strictness. -/
theorem triangular_partition_cex :
    ¬ ((triangle_around_threshold (some 0) 0 (6 / 5) 0 3).1.2.1 ≤
        (triangle_around_threshold (some 0) 0 (6 / 5) 0 3).1.2.2) ∧
      (triangle_around_threshold none 0 0 0 3).1.1 =
        (triangle_around_threshold none 0 0 0 3).1.2.1 := by
  constructor
  · norm_num [triangle_around_threshold, sort_tri, sortQ, List.insertionSort,
      List.orderedInsert]
  · norm_num [triangle_around_threshold]

/-- C3 amended: provided `lo ≤ hi`, every set produced by the quartile policy
(`tri` alias `triRepair`, hence all three sets of `trimf_from_quartiles`)
satisfies `lo ≤ a ≤ b ≤ c ≤ hi`, and is strict (`a < b < c`) exactly when its
repaired middle bound stays below `hi` (so strictness fails at the upper
boundary); the generic fallback partition of `triangle_around_threshold`
satisfies the non-strict bounds `lo ≤ a ≤ b ≤ c ≤ hi` but receives no repair
and keeps degenerate sets (low has `a = b = lo`, high has `b = c = hi`); the
threshold branch of `triangle_around_threshold` guarantees neither bounds nor
ordering (see the counterexample). -/
theorem triangular_partition_amended (lo hi : ℚ) (h : lo ≤ hi) :
    (∀ a0 b0 c0 : ℚ,
        triBounds lo hi (triRepair lo hi a0 b0 c0) ∧
          (((triRepair lo hi a0 b0 c0).1 < (triRepair lo hi a0 b0 c0).2.1 ∧
              (triRepair lo hi a0 b0 c0).2.1 < (triRepair lo hi a0 b0 c0).2.2) ↔
            (triRepair lo hi a0 b0 c0).2.1 < hi)) ∧
      (∀ mn p25 p50 p75 mx : ℚ,
        triBounds lo hi (trimf_from_quartiles mn p25 p50 p75 mx lo hi).1 ∧
          triBounds lo hi (trimf_from_quartiles mn p25 p50 p75 mx lo hi).2.1 ∧
          triBounds lo hi (trimf_from_quartiles mn p25 p50 p75 mx lo hi).2.2) ∧
      ∀ lm hm : ℚ,
        triBounds lo hi (triangle_around_threshold none lm hm lo hi).1 ∧
          triBounds lo hi (triangle_around_threshold none lm hm lo hi).2.1 ∧
          triBounds lo hi (triangle_around_threshold none lm hm lo hi).2.2 := by
  have main : ∀ a0 b0 c0 : ℚ,
      triBounds lo hi (triRepair lo hi a0 b0 c0) ∧
        (((triRepair lo hi a0 b0 c0).1 < (triRepair lo hi a0 b0 c0).2.1 ∧
            (triRepair lo hi a0 b0 c0).2.1 < (triRepair lo hi a0 b0 c0).2.2) ↔
          (triRepair lo hi a0 b0 c0).2.1 < hi) := by
    intro a0 b0 c0
    have ha2 : clampQ lo hi a0 ≤ hi := clampQ_le_hi h a0
    have hb2 : clampQ lo hi b0 ≤ hi := clampQ_le_hi h b0
    have hc2 : clampQ lo hi c0 ≤ hi := clampQ_le_hi h c0
    have hab : clampQ lo hi a0 ≤ repairUp hi (clampQ lo hi a0) (clampQ lo hi b0) :=
      le_repairUp ha2 _
    have hbhi : repairUp hi (clampQ lo hi a0) (clampQ lo hi b0) ≤ hi :=
      repairUp_le_hi _ hb2
    have hbc : repairUp hi (clampQ lo hi a0) (clampQ lo hi b0) ≤
        repairUp hi (repairUp hi (clampQ lo hi a0) (clampQ lo hi b0)) (clampQ lo hi c0) :=
      le_repairUp hbhi _
    have hchi : repairUp hi (repairUp hi (clampQ lo hi a0) (clampQ lo hi b0))
        (clampQ lo hi c0) ≤ hi := repairUp_le_hi _ hc2
    refine ⟨⟨le_clampQ lo hi a0, hab, hbc, hchi⟩, ?_, ?_⟩
    · rintro ⟨-, hlt⟩
      exact lt_of_lt_of_le hlt hchi
    · intro hlt
      exact ⟨(lt_repairUp_iff ha2 hb2).mpr (lt_of_le_of_lt hab hlt),
        (lt_repairUp_iff hbhi hc2).mpr hlt⟩
  have fb : ∀ lm hm : ℚ,
      triBounds lo hi (triangle_around_threshold none lm hm lo hi).1 ∧
        triBounds lo hi (triangle_around_threshold none lm hm lo hi).2.1 ∧
        triBounds lo hi (triangle_around_threshold none lm hm lo hi).2.2 := by
    intro lm hm
    have hs : 0 ≤ hi - lo := by linarith
    refine ⟨⟨?_, ?_, ?_, ?_⟩, ⟨?_, ?_, ?_, ?_⟩, ⟨?_, ?_, ?_, ?_⟩⟩ <;>
      simp only [triangle_around_threshold] <;> nlinarith [hs]
  exact ⟨main, fun mn p25 p50 p75 mx =>
    ⟨(main mn p25 p50).1, (main p25 p50 p75).1, (main p50 p75 mx).1⟩, fb⟩

/-- Witness for the amended C3 statement at the concrete universe `[0, 1]`,
repair inputs `(5, 0, 2)` and fallback arguments `(0, 0)`. -/
theorem triangular_partition_amended_witness :
    (0 : ℚ) ≤ 1 ∧
      (triBounds 0 1 (triRepair 0 1 5 0 2) ∧
        (((triRepair 0 1 5 0 2).1 < (triRepair 0 1 5 0 2).2.1 ∧
            (triRepair 0 1 5 0 2).2.1 < (triRepair 0 1 5 0 2).2.2) ↔
          (triRepair 0 1 5 0 2).2.1 < 1)) ∧
      (triBounds 0 1 (triangle_around_threshold none 0 0 0 1).1 ∧
        triBounds 0 1 (triangle_around_threshold none 0 0 0 1).2.1 ∧
        triBounds 0 1 (triangle_around_threshold none 0 0 0 1).2.2) :=
  ⟨by norm_num, (triangular_partition_amended 0 1 (by norm_num)).1 5 0 2,
    (triangular_partition_amended 0 1 (by norm_num)).2.2 0 0⟩

lemma sliceWindowsGo_eq (n win hop : ℕ) (hh : 0 < hop) (i : ℕ) :
    sliceWindowsGo n win hop i =
      if i + win ≤ n then
        (List.range ((n - win - i) / hop + 1)).map fun j => (i + j * hop, i + j * hop + win)
      else [] := by
  refine sliceWindowsGo.induct n win hop
    (fun i => sliceWindowsGo n win hop i =
      if i + win ≤ n then
        (List.range ((n - win - i) / hop + 1)).map fun j => (i + j * hop, i + j * hop + win)
      else []) ?_ ?_ i
  · intro x hx ih
    rw [sliceWindowsGo, dif_pos hx, if_pos hx.2, ih]
    by_cases h2 : x + hop + win ≤ n
    · rw [if_pos h2]
      have hle : hop ≤ n - win - x := by omega
      have hdiv : (n - win - x) / hop + 1 = ((n - win - (x + hop)) / hop + 1) + 1 := by
        rw [Nat.div_eq_sub_div hh hle]
        have hsub : n - win - x - hop = n - win - (x + hop) := by omega
        rw [hsub]
      rw [hdiv]
      conv_rhs => rw [List.range_succ_eq_map, List.map_cons, List.map_map]
      congr 1
      · simp
      · refine List.map_congr_left fun j hj => ?_
        simp only [Function.comp_apply, Nat.succ_mul, Prod.mk.injEq]
        omega
    · rw [if_neg h2]
      have hlt : n - win - x < hop := by omega
      rw [Nat.div_eq_of_lt hlt]
      simp [show List.range 1 = [0] from rfl]
  · intro x hx
    have hx' : ¬x + win ≤ n := fun hc => hx ⟨hh, hc⟩
    rw [sliceWindowsGo, dif_neg hx, if_neg hx']

/-- C5: for `win ≥ 1`, `hop ≥ 1`, `win ≤ n`, the windowing engine yields
exactly the slices `(i, i+win)` for `i = 0, hop, 2·hop, …` while `i+win ≤ n`:
that is `⌊(n-win)/hop⌋ + 1` windows, starts increasing by `hop`, each of length
`win` and contained in `[0, n)` — the trailing partial window is dropped. -/
theorem slice_windows_spec (n win hop : ℕ) (hwin : 1 ≤ win) (hhop : 1 ≤ hop)
    (hn : win ≤ n) :
    slice_windows n win hop =
        (List.range ((n - win) / hop + 1)).map (fun j => (j * hop, j * hop + win)) ∧
      (slice_windows n win hop).length = (n - win) / hop + 1 ∧
      ∀ w ∈ slice_windows n win hop, w.2 = w.1 + win ∧ w.2 ≤ n := by
  have h0 : slice_windows n win hop =
      (List.range ((n - win) / hop + 1)).map fun j => (j * hop, j * hop + win) := by
    unfold slice_windows
    rw [sliceWindowsGo_eq n win hop hhop 0, if_pos (by omega)]
    simp
  refine ⟨h0, ?_, ?_⟩
  · rw [h0, List.length_map, List.length_range]
  · intro w hw
    rw [h0] at hw
    obtain ⟨j, hj, rfl⟩ := List.mem_map.mp hw
    have hj' := List.mem_range.mp hj
    refine ⟨rfl, ?_⟩
    have h1 : j ≤ (n - win) / hop := by omega
    have h2 : j * hop ≤ (n - win) / hop * hop := mul_le_mul_right' h1 hop
    have h3 : (n - win) / hop * hop ≤ n - win := Nat.div_mul_le_self _ _
    simp only []
    omega

/-- Witness for C5 at `n = 10`, `win = 3`, `hop = 2`: four windows starting at
`0, 2, 4, 6`. -/
theorem slice_windows_spec_witness :
    1 ≤ 3 ∧ 1 ≤ 2 ∧ 3 ≤ 10 ∧
      slice_windows 10 3 2 =
        (List.range ((10 - 3) / 2 + 1)).map fun j => (j * 2, j * 2 + 3) :=
  ⟨by decide, by decide, by decide,
    (slice_windows_spec 10 3 2 (by decide) (by decide) (by decide)).1⟩

lemma foldr_max_nonneg (l : List ℚ) : 0 ≤ l.foldr max 0 := by
  induction l with
  | nil => exact le_refl 0
  | cons a t ih => exact le_trans ih (le_max_right a _)

lemma aggregatedMF_nonneg (rs : List Rule) (a g x : ℚ) : 0 ≤ aggregatedMF rs a g x :=
  foldr_max_nonneg _

lemma fallGrid_bounds : ∀ x ∈ fallGrid, 0 ≤ x ∧ x ≤ 1 := by
  intro x hx
  unfold fallGrid at hx
  rw [List.mem_map] at hx
  obtain ⟨i, hi, rfl⟩ := hx
  rw [List.mem_range] at hi
  have hc : (i : ℚ) ≤ 100 := by exact_mod_cast Nat.le_of_lt_succ hi
  constructor
  · positivity
  · rw [div_le_one (by norm_num)]
    exact hc

lemma scoreFromRules_mem_unit (rs : List Rule) (a g : ℚ) :
    0 ≤ scoreFromRules rs a g ∧ scoreFromRules rs a g ≤ 1 := by
  unfold scoreFromRules centroidQ
  by_cases hd : (fallGrid.map (aggregatedMF rs a g)).sum = 0
  · rw [if_pos hd]
    exact ⟨le_refl 0, by norm_num⟩
  · rw [if_neg hd]
    simp only [Option.getD_some]
    have hμ : ∀ x ∈ fallGrid, 0 ≤ aggregatedMF rs a g x := fun x _ =>
      aggregatedMF_nonneg rs a g x
    have hden0 : 0 ≤ (fallGrid.map (aggregatedMF rs a g)).sum := by
      refine List.sum_nonneg fun y hy => ?_
      obtain ⟨x, hx, rfl⟩ := List.mem_map.mp hy
      exact hμ x hx
    have hden : 0 < (fallGrid.map (aggregatedMF rs a g)).sum :=
      lt_of_le_of_ne hden0 (Ne.symm hd)
    have hnum0 : 0 ≤ (fallGrid.map fun x => x * aggregatedMF rs a g x).sum := by
      refine List.sum_nonneg fun y hy => ?_
      obtain ⟨x, hx, rfl⟩ := List.mem_map.mp hy
      exact mul_nonneg (fallGrid_bounds x hx).1 (hμ x hx)
    have hnum_le : (fallGrid.map fun x => x * aggregatedMF rs a g x).sum ≤
        (fallGrid.map (aggregatedMF rs a g)).sum :=
      List.sum_le_sum fun x hx => mul_le_of_le_one_left (hμ x hx) (fallGrid_bounds x hx).2
    exact ⟨div_nonneg hnum0 hden0, (div_le_one hden).mpr hnum_le⟩

/-- C2: `fuzzy_fall_score` first clamps the acceleration input to `[0, 3.5]`
and the rotation input to `[0, 600]`, always returns a score in `[0, 1]`, and
lets no failure escape: the degenerate-defuzzification case (`centroidQ = none`,
the only failure mode of the modelled computation, corresponding to the
exception caught at fuzzy_logic_characterized.py lines 91-94) is mapped to the
score 0. -/
theorem fuzzy_fall_score_contract :
    ∀ a g : ℚ,
      fuzzy_fall_score a g =
          scoreFromRules rules (max 0 (min a (7 / 2))) (max 0 (min g 600)) ∧
        (0 ≤ fuzzy_fall_score a g ∧ fuzzy_fall_score a g ≤ 1) ∧
        (centroidQ (aggregatedMF rules (max 0 (min a (7 / 2))) (max 0 (min g 600))) = none →
          fuzzy_fall_score a g = 0) := by
  intro a g
  refine ⟨rfl, scoreFromRules_mem_unit rules _ _, fun hnone => ?_⟩
  unfold fuzzy_fall_score scoreFromRules
  rw [hnone]
  rfl

instance : LeftCommutative (max : ℚ → ℚ → ℚ) := ⟨fun a b c => max_left_comm a b c⟩

/-- C7: the rule base consists of exactly the eight stated conjunctive rules
(alto∧rapido→alto, alto∧medio→medio, medio∧rapido→medio, bajo∧rapido→medio,
medio∧medio→medio, medio∧lento→bajo, bajo∧lento→bajo, alto∧lento→medio), each
rule's strength being the min of its two antecedent memberships, and the score
is invariant under any permutation of the rule list. -/
theorem rule_base_spec :
    rules =
        [⟨.alto, .rapido, .alto⟩, ⟨.alto, .medio, .medio⟩, ⟨.medio, .rapido, .medio⟩,
          ⟨.bajo, .rapido, .medio⟩, ⟨.medio, .medio, .medio⟩, ⟨.medio, .lento, .bajo⟩,
          ⟨.bajo, .lento, .bajo⟩, ⟨.alto, .lento, .medio⟩] ∧
      rules.length = 8 ∧
      (∀ r ∈ rules, ∀ a g : ℚ, ruleStrength r a g = min (accMF r.acc a) (gyroMF r.gyro g)) ∧
      ∀ rs : List Rule, rs.Perm rules → ∀ a g : ℚ,
        scoreFromRules rs a g = scoreFromRules rules a g := by
  refine ⟨rfl, rfl, fun r _ a g => rfl, fun rs hperm a g => ?_⟩
  have hagg : aggregatedMF rs a g = aggregatedMF rules a g := by
    funext x
    exact (hperm.map fun r => min (ruleStrength r a g) (fallMF r.out x)).foldr_eq 0
  unfold scoreFromRules
  rw [hagg]

/-- Witness for C7: the first rule is in the rule base with min-strength
semantics, and the reversed rule list is a permutation of the rule base
yielding the same score at the concrete input `(1.5 g, 100 deg/s)`. -/
theorem rule_base_spec_witness :
    rules.reverse.Perm rules ∧
      (⟨.alto, .rapido, .alto⟩ : Rule) ∈ rules ∧
      ruleStrength ⟨.alto, .rapido, .alto⟩ 2 300 =
        min (accMF AccTerm.alto 2) (gyroMF GyroTerm.rapido 300) ∧
      scoreFromRules rules.reverse (3 / 2) 100 = scoreFromRules rules (3 / 2) 100 :=
  ⟨List.reverse_perm rules, by decide,
    rule_base_spec.2.2.1 ⟨.alto, .rapido, .alto⟩ (by decide) 2 300,
    rule_base_spec.2.2.2 rules.reverse (List.reverse_perm rules) (3 / 2) 100⟩

lemma sortQ_ne_nil {V : List ℚ} (h : V ≠ []) : sortQ V ≠ [] := by
  intro hc
  apply h
  have hl := sortQ_length V
  rw [hc] at hl
  exact List.length_eq_zero.mp hl.symm

lemma sorted_le_getLastD (l : List ℚ) :
    ∀ d : ℚ, List.Sorted (· ≤ ·) l → ∀ x ∈ l, x ≤ l.getLastD d := by
  induction l with
  | nil =>
    intro d _ x hx
    simp at hx
  | cons a t ih =>
    intro d hs x hx
    rw [List.getLastD_cons]
    rcases List.mem_cons.mp hx with hxa | hxt
    · subst hxa
      cases t with
      | nil => simp [List.getLastD]
      | cons b t' =>
        have hab : x ≤ b := List.rel_of_sorted_cons hs b (List.mem_cons_self b t')
        exact le_trans hab (ih x hs.of_cons b (List.mem_cons_self b t'))
    · exact ih a hs.of_cons x hxt

lemma percOfSorted_fifty {vs : List ℚ} (hne : vs ≠ []) :
    percOfSorted vs 50 =
      some (if vs.length % 2 = 1 then vs.getD (vs.length / 2) 0
        else (vs.getD (vs.length / 2 - 1) 0 + vs.getD (vs.length / 2) 0) / 2) := by
  have hlen : 0 < vs.length := List.length_pos.mpr hne
  have hemp : ¬vs.isEmpty = true := by simp [List.isEmpty_iff, hne]
  unfold percOfSorted
  rw [if_neg hemp, if_neg (by norm_num : ¬(50 : ℚ) ≤ 0), if_neg (by norm_num : ¬(100 : ℚ) ≤ 50)]
  by_cases hodd : vs.length % 2 = 1
  · obtain ⟨m, hm⟩ : ∃ m, vs.length = 2 * m + 1 := ⟨vs.length / 2, by omega⟩
    have hk : percPos vs.length 50 = (m : ℚ) := by
      unfold percPos
      have h1 : vs.length - 1 = 2 * m := by omega
      rw [h1]
      push_cast
      ring
    rw [hk, Int.floor_natCast, Int.ceil_natCast, if_pos rfl, Int.toNat_natCast, if_pos hodd]
    have hv2 : vs.length / 2 = m := by omega
    rw [hv2]
  · obtain ⟨m, hm, hm1⟩ : ∃ m, vs.length = 2 * m ∧ 1 ≤ m :=
      ⟨vs.length / 2, by omega, by omega⟩
    have hmq : (1 : ℚ) ≤ (m : ℚ) := by exact_mod_cast hm1
    have hk : percPos vs.length 50 = (m : ℚ) - 1 / 2 := by
      unfold percPos
      have h1 : vs.length - 1 = 2 * m - 1 := by omega
      rw [h1]
      have h2 : ((2 * m - 1 : ℕ) : ℚ) = 2 * (m : ℚ) - 1 := by
        have h3 : 1 ≤ 2 * m := by omega
        push_cast [h3]
        ring
      rw [h2]
      ring
    have hfl : ⌊(m : ℚ) - 1 / 2⌋ = (m : ℤ) - 1 := by
      rw [Int.floor_eq_iff]
      constructor <;> push_cast <;> linarith
    have hcl : ⌈(m : ℚ) - 1 / 2⌉ = (m : ℤ) := by
      rw [Int.ceil_eq_iff]
      constructor <;> push_cast <;> linarith
    rw [hk, hfl, hcl, if_neg (by omega : ¬(m : ℤ) - 1 = (m : ℤ))]
    have ht1 : ((m : ℤ) - 1).toNat = m - 1 := by omega
    have ht2 : ((m : ℤ)).toNat = m := by omega
    rw [ht1, ht2, if_neg hodd]
    have hv2 : vs.length / 2 = m := by omega
    rw [hv2]
    congr 1
    push_cast
    ring

/-- C4: on every non-empty list of non-missing values, `percentile` returns the
minimum at `p ≤ 0`, the maximum at `p ≥ 100`, and the standard median (middle
element for odd length, mean of the two middle elements for even length) at
`p = 50`. -/
theorem percentile_min_max_median :
    ∀ V : List ℚ, V ≠ [] →
      (∀ p : ℚ, p ≤ 0 →
          ∃ m, percentile (V.map some) p = some m ∧ m ∈ V ∧ ∀ x ∈ V, m ≤ x) ∧
        (∀ p : ℚ, 100 ≤ p →
          ∃ M, percentile (V.map some) p = some M ∧ M ∈ V ∧ ∀ x ∈ V, x ≤ M) ∧
        percentile (V.map some) 50 = some (medianSpec V) := by
  intro V hV
  have hfm : (V.map some).filterMap id = V := by
    rw [List.filterMap_map, Function.id_comp]
    exact List.filterMap_some V
  have hperc : ∀ p : ℚ, percentile (V.map some) p = percOfSorted (sortQ V) p := by
    intro p
    unfold percentile
    rw [hfm]
  have hsne : sortQ V ≠ [] := sortQ_ne_nil hV
  have hemp : ¬(sortQ V).isEmpty = true := by simp [List.isEmpty_iff, hsne]
  have hsorted := sortQ_sorted V
  obtain ⟨a, t, hat⟩ := List.exists_cons_of_ne_nil hsne
  refine ⟨?_, ?_, ?_⟩
  · intro p hp
    refine ⟨a, ?_, ?_, ?_⟩
    · rw [hperc p]
      unfold percOfSorted
      rw [if_neg hemp, if_pos hp, hat]
      rfl
    · exact (sortQ_perm V).mem_iff.mp (by rw [hat]; exact List.mem_cons_self a t)
    · intro x hx
      have hx' : x ∈ sortQ V := (sortQ_perm V).mem_iff.mpr hx
      have hs' := hsorted
      rw [hat] at hx' hs'
      rcases List.mem_cons.mp hx' with hxa | hxt
      · rw [hxa]
      · exact List.rel_of_sorted_cons hs' x hxt
  · intro p hp
    have hp0 : ¬p ≤ 0 := by linarith
    obtain ⟨y, hy⟩ := Option.isSome_iff_exists.mp (List.getLast?_isSome.mpr hsne)
    refine ⟨y, ?_, ?_, ?_⟩
    · rw [hperc p]
      unfold percOfSorted
      rw [if_neg hemp, if_neg hp0, if_pos hp, hy]
    · have hymem : y ∈ sortQ V := by
        obtain ⟨hne2, hyeq⟩ := List.mem_getLast?_eq_getLast (by rw [hy]; rfl)
        rw [hyeq]
        exact List.getLast_mem hne2
      exact (sortQ_perm V).mem_iff.mp hymem
    · intro x hx
      have hx' : x ∈ sortQ V := (sortQ_perm V).mem_iff.mpr hx
      have hle := sorted_le_getLastD (sortQ V) y hsorted x hx'
      rw [List.getLastD_eq_getLast?, hy] at hle
      simpa using hle
  · rw [hperc 50, percOfSorted_fifty hsne]
    unfold medianSpec
    rw [sortQ_length]

/-- Witness for C4 at the concrete value list `[3, 1, 2]`. -/
theorem percentile_min_max_median_witness :
    ([(3 : ℚ), 1, 2] ≠ []) ∧
      percentile ([(3 : ℚ), 1, 2].map some) 50 = some (medianSpec [(3 : ℚ), 1, 2]) :=
  ⟨by simp, (percentile_min_max_median [3, 1, 2] (by simp)).2.2⟩

lemma summarize_thresholds_thr (rows : List (String × ℚ)) :
    (summarize_thresholds rows).thr =
      match percentile (((rows.filter fun r => r.1 == "ADL").map Prod.snd).map some) 95,
        percentile (((rows.filter fun r => r.1 == "FALL").map Prod.snd).map some) 50 with
      | some x, some y => some ((x + y) / 2)
      | _, _ => none := rfl

lemma percentile_map_some_isSome (l : List ℚ) (p : ℚ) :
    (percentile (l.map some) p).isSome = true ↔ l ≠ [] := by
  constructor
  · intro h hl
    subst hl
    simp [percentile, percOfSorted, sortQ, List.insertionSort] at h
  · intro hl
    have hfm : (l.map some).filterMap id = l := by
      rw [List.filterMap_map, Function.id_comp]
      exact List.filterMap_some l
    unfold percentile
    rw [hfm]
    have hsne := sortQ_ne_nil hl
    have hemp : ¬(sortQ l).isEmpty = true := by simp [List.isEmpty_iff, hsne]
    unfold percOfSorted
    rw [if_neg hemp]
    by_cases h0 : p ≤ 0
    · rw [if_pos h0]
      exact List.head?_isSome.mpr hsne
    · rw [if_neg h0]
      by_cases h100 : 100 ≤ p
      · rw [if_pos h100]
        exact List.getLast?_isSome.mpr hsne
      · rw [if_neg h100]
        by_cases heq : (⌊percPos (sortQ l).length p⌋ : ℤ) = ⌈percPos (sortQ l).length p⌉
        · rw [if_pos heq]
          rfl
        · rw [if_neg heq]
          rfl

/-- C8: the decision threshold of `summarize_thresholds` is defined (non-NaN)
exactly when both classes contribute windows for the feature; when both ADL p95
and FALL p50 exist, `thr` is their midpoint; and when `thr` is missing,
`triangle_around_threshold` returns the fixed generic partition
`low = [lo, lo, lo+0.4·span]`, `medium = [lo+0.2·span, lo+0.5·span, lo+0.8·span]`,
`high = [lo+0.6·span, hi, hi]` (with `span = hi - lo`) as an ordinary value —
no error reaches the caller. -/
theorem threshold_midpoint_and_fallback :
    ∀ rows : List (String × ℚ),
      ((summarize_thresholds rows).thr.isSome ↔
          ((rows.filter fun r => r.1 == "ADL") ≠ [] ∧
            (rows.filter fun r => r.1 == "FALL") ≠ [])) ∧
        (∀ x y : ℚ,
          percentile (((rows.filter fun r => r.1 == "ADL").map Prod.snd).map some) 95 =
              some x →
            percentile (((rows.filter fun r => r.1 == "FALL").map Prod.snd).map some) 50 =
              some y →
            (summarize_thresholds rows).thr = some ((x + y) / 2)) ∧
        ∀ lm hm lo hi : ℚ,
          triangle_around_threshold none lm hm lo hi =
            ((lo, lo, lo + (hi - lo) * (4 / 10)),
              (lo + (hi - lo) * (2 / 10), lo + (hi - lo) * (5 / 10),
                lo + (hi - lo) * (8 / 10)),
              (lo + (hi - lo) * (6 / 10), hi, hi)) := by
  intro rows
  refine ⟨?_, ?_, fun lm hm lo hi => rfl⟩
  · have hA := percentile_map_some_isSome ((rows.filter fun r => r.1 == "ADL").map Prod.snd) 95
    have hF := percentile_map_some_isSome ((rows.filter fun r => r.1 == "FALL").map Prod.snd) 50
    simp only [ne_eq, List.map_eq_nil_iff] at hA hF
    rw [summarize_thresholds_thr]
    cases hA' : percentile (((rows.filter fun r => r.1 == "ADL").map Prod.snd).map some) 95 with
    | none =>
      rw [hA'] at hA
      simp only [Option.isSome_none, Bool.false_eq_true, false_iff, not_not] at hA
      cases hF' : percentile (((rows.filter fun r => r.1 == "FALL").map Prod.snd).map some) 50 with
      | none => simp [hA]
      | some y => simp [hA]
    | some x =>
      rw [hA'] at hA
      cases hF' : percentile (((rows.filter fun r => r.1 == "FALL").map Prod.snd).map some) 50 with
      | none =>
        rw [hF'] at hF
        simp only [Option.isSome_none, Bool.false_eq_true, false_iff, not_not] at hF
        simp [hF]
      | some y =>
        rw [hF'] at hF
        simp only [Option.isSome_some, true_iff] at hA hF
        simp [hA, hF]
  · intro x y hx hy
    rw [summarize_thresholds_thr, hx, hy]

/-- Witness for C8 at the concrete feature table
`[("ADL", 1), ("FALL", 3)]`: both class percentiles exist and the threshold is
their midpoint `2`. -/
theorem threshold_midpoint_and_fallback_witness :
    percentile ((([(("ADL" : String), (1 : ℚ)), ("FALL", 3)].filter
          fun r => r.1 == "ADL").map Prod.snd).map some) 95 = some 1 ∧
      percentile ((([(("ADL" : String), (1 : ℚ)), ("FALL", 3)].filter
          fun r => r.1 == "FALL").map Prod.snd).map some) 50 = some 3 ∧
      (summarize_thresholds [("ADL", 1), ("FALL", 3)]).thr = some ((1 + 3) / 2) := by
  have hx : percentile ((([(("ADL" : String), (1 : ℚ)), ("FALL", 3)].filter
      fun r => r.1 == "ADL").map Prod.snd).map some) 95 = some 1 := by
    norm_num [percentile, percOfSorted, percPos, sortQ, List.insertionSort,
      List.orderedInsert, List.filter]
  have hy : percentile ((([(("ADL" : String), (1 : ℚ)), ("FALL", 3)].filter
      fun r => r.1 == "FALL").map Prod.snd).map some) 50 = some 3 := by
    norm_num [percentile, percOfSorted, percPos, sortQ, List.insertionSort,
      List.orderedInsert, List.filter]
  exact ⟨hx, hy,
    (threshold_midpoint_and_fallback [("ADL", 1), ("FALL", 3)]).2.1 1 3 hx hy⟩

end FallDetector

